import Mathlib

/-!
Verification of the FSL conda installer (fslinstaller.py) against its
natural-language specification.  Python functions are shallowly embedded
as executable Lean definitions; machine strings are Lean strings or lists
of characters, Python None is Option.none, and fallible code returns
Except.  Each embedded definition cites the source function it models.
-/

/-! ## Version model (fslinstaller.py, class Version, lines 94-127)

A version string is parsed by splitting on a dot; each component is
converted with int(), and parsing stops at the first component that is not
an integer.  Comparison is lexicographic over the parsed components, and
when all zipped components are equal the shorter component list is
smaller.
-/

/-- str.split with a single-character separator: every occurrence of the
separator delimits two (possibly empty) parts, and the split of an empty
string is one empty part.  Strings are handled as their character
lists. -/
def pySplitChar (sep : Char) : List Char → List (List Char)
  | [] => [[]]
  | c :: rest =>
    if c = sep then [] :: pySplitChar sep rest
    else
      match pySplitChar sep rest with
      | l :: ls => (c :: l) :: ls
      | [] => [[c]]

/-- The value of one decimal digit, or None for any other character. -/
def digitVal (c : Char) : Option Nat :=
  if '0' ≤ c ∧ c ≤ '9' then some (c.toNat - '0'.toNat) else none

/-- A non-empty all-digit run read as a natural number. -/
def parseDigits : List Char → Option Nat
  | [] => none
  | cs => go cs 0
where
  go : List Char → Nat → Option Nat
    | [], acc => some acc
    | c :: rest, acc =>
      match digitVal c with
      | some d => go rest (acc * 10 + d)
      | none => none

/-- int() as applied to one version component: an optional sign followed
by decimal digits.  (Python's int() additionally tolerates surrounding
whitespace and digit-group underscores, which do not occur in version
identifiers.) -/
def pyInt? : List Char → Option Int
  | '-' :: rest => (parseDigits rest).map (fun n => -(n : Int))
  | '+' :: rest => (parseDigits rest).map (fun n => (n : Int))
  | cs => (parseDigits cs).map (fun n => (n : Int))

/-- Components of a version string, as parsed by Version.__init__:
the components list collects int(comp) for each dot-separated component,
stopping at the first component that fails to parse. -/
def verComponents (verstr : String) : List Int :=
  go (pySplitChar '.' verstr.data)
where
  go : List (List Char) → List Int
    | [] => []
    | c :: cs =>
      match pyInt? c with
      | some n => n :: go cs
      | none   => []

/-- Version.__eq__: zipped components must agree pairwise and the
component lists must have the same length. -/
def verEq : List Int → List Int → Bool
  | [], [] => true
  | [], _ :: _ => false
  | _ :: _, [] => false
  | a :: as, b :: bs => a == b && verEq as bs

/-- Version.__lt__: first strictly-ordered zipped pair decides; if all
zipped pairs are equal, the shorter component list is smaller. -/
def verLt : List Int → List Int → Bool
  | [], [] => false
  | [], _ :: _ => true
  | _ :: _, [] => false
  | a :: as, b :: bs =>
    if a < b then true
    else if b < a then false
    else verLt as bs

/-- Version.__le__, as derived by functools.total_ordering from __lt__
and __eq__. -/
def verLe (a b : List Int) : Bool :=
  verLt a b || verEq a b

/-! ## Process return-code view (fslinstaller.py, Process.returncode,
lines 983-991)

The observable state of a Process consists of the underlying Popen
return code (None while the OS process has not exited) and the liveness
of the two stream-reader threads.  Process.forward_stream (lines
1086-1096) loops until its stream returns an empty read, so a reader
thread is no longer alive exactly when it has observed end-of-stream
(the threads run no code after the loop). -/
structure ProcessView where
  popen_returncode : Option Int
  stdout_alive : Bool
  stderr_alive : Bool

/-- Process.returncode: None until the OS process has terminated and both
consumer threads have finished; only then the Popen return code. -/
def processReturncode (p : ProcessView) : Option Int :=
  if p.popen_returncode.isNone then none
  else if p.stdout_alive then none
  else if p.stderr_alive then none
  else p.popen_returncode

/-! ## Context.admin_password (fslinstaller.py, lines 314-323)

The property accessor first returns a cached credential if present; then
returns None when the need-admin flag has been resolved to False; and
otherwise acquires a validated credential, stores it in the cache and
falls off the end of the function body (so that access returns None).
The accessor is modelled as a function from the pre-access state (cache
contents and resolved need-admin flag) and the credential that
acquisition would produce, to the returned value and post-access cache. -/
def adminPasswordAccess (cache : Option String) (needAdmin : Option Bool)
    (acquired : String) : Option String × Option String :=
  match cache with
  | some p => (some p, some p)
  | none =>
    -- Python: if self.__need_admin == False: return None
    -- (None == False evaluates to False, so an unresolved flag proceeds)
    if needAdmin = some false then (none, none)
    else (none, some acquired)

/-! ## Failure handler (fslinstaller.py, handle_error, lines 2048-2090)

The handler observes three pieces of install state: ctx.update (the
version string of an existing installation being updated in place, or
None), whether the destination directory currently exists (and with what
contents), and whether a previous installation was moved aside
(ctx.old_destdir).  Directory contents are abstract: rm -r maps an
existing directory to absent, and mv transfers contents unchanged. -/
structure ErrCtx (α : Type) where
  update : Option String
  destdir : Option α
  old_destdir : Option α

/-- Python truthiness of ctx.update (a str or None). -/
def pyTruthy : Option String → Bool
  | none => false
  | some s => s ≠ ""

/-- The clean-up performed by handle_error when an exception reaches it:
if ctx.update is truthy, warn only; otherwise remove the destination if
it exists; then, if the destination does not exist and old_destdir is
set, move the old directory back to the destination.  The handler then
calls sys.exit(1); the returned number is that exit status. -/
def handleErrorCleanup (s : ErrCtx α) : ErrCtx α × Nat :=
  let s1 :=
    if pyTruthy s.update then s
    else if s.destdir.isSome then { s with destdir := none }
    else s
  let s2 :=
    if s1.destdir.isNone && s1.old_destdir.isSome then
      { s1 with destdir := s1.old_destdir, old_destdir := none }
    else s1
  (s2, 1)

/-! ## Self-update (fslinstaller.py, self_update, lines 1661-1699)

The function compares Version(__version__) with the manifest installer
version; when the remote version is not strictly greater it returns
without action.  Otherwise it downloads the new installer to a temporary
file; when checksum verification is enabled and the file fails
verification it warns and returns, and otherwise it replaces the process
image via os.execv with the interpreter, the downloaded file, the
original argument vector tail, and a forced --no_self_update flag. -/
inductive SelfUpdateResult
  | noop
  | checksumWarn
  | execNew (argv : List String)
deriving DecidableEq

/-- self_update, with the download itself abstracted to the question of
whether the downloaded file matches the manifest checksum. -/
def selfUpdate (thisver latestver : String) (checksum : Bool)
    (checksumOk : Bool) (executable tmpf : String)
    (argvTail : List String) : SelfUpdateResult :=
  if verLe (verComponents latestver) (verComponents thisver) then
    .noop
  else if checksum && !checksumOk then
    .checksumWarn
  else
    .execNew ([executable, tmpf] ++ argvTail ++ ["--no_self_update"])

/-! ## Manifest model and build resolution
(fslinstaller.py, Context.download_manifest lines 493-526 and
Context.build lines 218-254)

The manifest is a JSON document; its versions object maps the key
"latest" to an alias string and each version string to a list of build
records.  The value of a versions key is therefore either an alias
target or a build list; keys are unique, so association-list lookup by
first match models dictionary lookup. -/
structure ManifestBuild where
  platform : String
  environment : String
  sha256 : String
  version : Option String
deriving DecidableEq

inductive VersionsEntry
  | aliasTo (target : String)
  | builds (bs : List ManifestBuild)
deriving DecidableEq

structure Manifest where
  versions : List (String × VersionsEntry)
deriving DecidableEq

/-- Dictionary lookup in the versions object. -/
def Manifest.lookup (m : Manifest) (k : String) : Option VersionsEntry :=
  (m.versions.find? (fun e => e.1 == k)).map (·.2)

/-- The post-parse step of Context.download_manifest (lines 519-524):
for every versions key other than "latest", a version field holding that
key is added to each build record in the key's build list.  (A manifest
whose non-latest keys hold anything other than build lists would raise
in Python; alias values are passed through unchanged here and are
exercised only under the key "latest".) -/
def augmentEntry (e : String × VersionsEntry) : String × VersionsEntry :=
  if e.1 == "latest" then e
  else
    match e.2 with
    | .aliasTo t => (e.1, .aliasTo t)
    | .builds bs =>
      (e.1, .builds (bs.map (fun b => { b with version := some e.1 })))

def addBuildVersions (m : Manifest) : Manifest :=
  ⟨m.versions.map augmentEntry⟩

inductive BuildError
  /-- The requested version is not a key of the versions object.  The
  second field is the joined list interpolated into the message
  so that FSL version X is not available - available versions Y. -/
  | unknownVersion (requested available : String)
  /-- No build entry for the requested version has exactly the host
  platform: Cannot find a version of FSL matching platform P. -/
  | platformNotAvailable (platform : String)
  /-- A lookup or iteration that would raise a KeyError/TypeError in
  Python on an ill-formed manifest. -/
  | badManifest
deriving DecidableEq

/-- Context.build (lines 218-254): fail if the requested version is not
a key of the versions object, quoting ', '.join(versions.keys());
resolve the "latest" alias to its target; take the first build whose
platform equals the host platform exactly; fail if there is none. -/
def contextBuild (m : Manifest) (fslversion platform : String) :
    Except BuildError ManifestBuild :=
  if (m.lookup fslversion).isNone then
    .error (.unknownVersion fslversion
      (String.intercalate ", " (m.versions.map (·.1))))
  else
    let resolved :=
      if fslversion == "latest" then
        match m.lookup "latest" with
        | some (.aliasTo t) => Except.ok t
        | _ => Except.error BuildError.badManifest
      else Except.ok fslversion
    match resolved with
    | .error e => .error e
    | .ok v =>
      match m.lookup v with
      | some (.builds bs) =>
        match bs.find? (fun b => b.platform == platform) with
        | some b => .ok b
        | none => .error (.platformNotAvailable platform)
      | _ => .error .badManifest

/-- The composition the installer actually runs: Context.manifest feeds
the parsed-and-augmented manifest to Context.build. -/
def resolveBuild (m : Manifest) (fslversion platform : String) :
    Except BuildError ManifestBuild :=
  contextBuild (addBuildVersions m) fslversion platform

/-- The manifest of the end-to-end example: latest aliases 6.2.0, which
has one linux-64 build at environment u1. -/
def exampleManifest : Manifest :=
  ⟨[("latest", .aliasTo "6.2.0"),
    ("6.2.0", .builds [⟨"linux-64", "u1", "h1", none⟩])]⟩

/-! ## CUDA selection policy

Modelled from the spec: the CUDA selection policy of the packaged
installer module fsl/installer/fslinstaller.py, which is exercised by
src/test/test_installer_cuda.py but is itself absent from src/ (the
standalone src/fslinstaller.py predates it and only filters package
names).  Per the spec: the host is probed for a usable CUDA version; an
explicit user request of "none" disables CUDA unconditionally; an
explicit requested version overrides detection; an effective CUDA
version X.Y yields the dependency constraint >=X.Y,<X+1, attached only
to builds and extras flagged cuda_enabled.  The test suite encodes the
same pin format and appends the constraint as a cuda-version dependency
line. -/
inductive CudaPreference
  | auto
  | disabled
  | explicitVer (major minor : Nat)
deriving DecidableEq

/-- Modelled from the spec: the effective CUDA version given the user
preference and the detected host capability ("none" disables
unconditionally; an explicit request overrides detection; otherwise the
detected version, if any, is used). -/
def effectiveCuda (pref : CudaPreference) (detected : Option (Nat × Nat)) :
    Option (Nat × Nat) :=
  match pref with
  | .disabled => none
  | .explicitVer major minor => some (major, minor)
  | .auto => detected

/-- Modelled from the spec: the dependency constraint emitted for an
effective CUDA version X.Y, compatible with the X major series only. -/
def cudaConstraint (major minor : Nat) : String :=
  ">=" ++ toString major ++ "." ++ toString minor ++ ",<" ++
    toString (major + 1)

/-- Modelled from the spec: the CUDA constraint attached to one
environment (the main build or one extra), which carries a cuda_enabled
flag; environments not flagged cuda_enabled never receive a
constraint. -/
def envCudaConstraint (cudaEnabled : Bool) (pref : CudaPreference)
    (detected : Option (Nat × Nat)) : Option String :=
  if cudaEnabled then
    (effectiveCuda pref detected).map (fun v => cudaConstraint v.1 v.2)
  else
    none

/-! ## Python string primitives used by patch_file

patch_file (fslinstaller.py, lines 1531-1559) works with Python text
files; strings are modelled as lists of characters.  Reading a text file
applies universal-newline translation, readlines splits the translated
text into lines, and each line is stripped of leading and trailing
whitespace.  Writing joins the lines with a single newline (on POSIX,
text-mode writing performs no translation). -/
abbrev PyStr := List Char

/-- The characters stripped by str.strip() with no argument. -/
def pyWhitespace (c : Char) : Bool :=
  c == ' ' || c == '\t' || c == '\n' || c == '\r' ||
    c == '\x0b' || c == '\x0c'

/-- str.strip(): remove leading and trailing whitespace. -/
def pyStrip (s : PyStr) : PyStr :=
  List.rdropWhile pyWhitespace (s.dropWhile pyWhitespace)

/-- str.split with a single newline separator. -/
def splitNl : PyStr → List PyStr :=
  pySplitChar '\n'

/-- A single newline joining lines, as written by f.write of a
newline-joined string. -/
def joinNl : List PyStr → PyStr
  | [] => []
  | [l] => l
  | l :: ls => l ++ '\n' :: joinNl ls

/-- Universal-newline translation applied when a text file is read:
a carriage return, optionally followed by a line feed, becomes a single
line feed. -/
def univNl : PyStr → PyStr
  | [] => []
  | '\r' :: '\n' :: rest => '\n' :: univNl rest
  | '\r' :: rest => '\n' :: univNl rest
  | c :: rest => c :: univNl rest

/-- f.readlines() on already-translated text: split at newlines, where a
line includes its terminating newline, so translated text ending in a
newline yields no trailing empty line and empty text yields no lines.
Terminating newlines are dropped here because patch_file immediately
strips every line. -/
def pyReadLines (s : PyStr) : List PyStr :=
  if s = [] then []
  else if s.getLast? = some '\n' then (splitNl s).dropLast
  else splitNl s

/-- list.index as used on the line list: the index of the first equal
element, or None (the ValueError branch) when there is none. -/
def listIndex? (x : PyStr) : List PyStr → Option Nat
  | [] => none
  | y :: ys => if y = x then some 0 else (listIndex? x ys).map (· + 1)

/-- The stripped line list patch_file computes from the current file
state (None when the file does not exist). -/
def patchLines (fileContents : Option PyStr) : List PyStr :=
  match fileContents with
  | some s => (pyReadLines (univNl s)).map pyStrip
  | none => []

/-- The raw line list read from the current file state, before the
per-line stripping patch_file applies (an absent file reads as no
lines). -/
def origLines : Option PyStr → List PyStr
  | some s => pyReadLines (univNl s)
  | none => []

/-- patch_file (lines 1531-1559), as the new file contents produced from
the old contents: split content at newlines; read and strip the file's
lines (an absent file reads as no lines); if searchline occurs, replace
numlines lines starting at its first occurrence with the content lines;
otherwise append an empty line and the content lines; write the lines
joined by newlines. -/
def patchFile (fileContents : Option PyStr) (searchline : PyStr)
    (numlines : Nat) (content : PyStr) : PyStr :=
  let contentLines := splitNl content
  let lines := patchLines fileContents
  match listIndex? searchline lines with
  | some idx =>
    joinNl (lines.take idx ++ contentLines ++ lines.drop (idx + numlines))
  | none =>
    joinNl (lines ++ [[]] ++ contentLines)

-- Equality of Except results on the manifest model is decidable.
deriving instance DecidableEq for Except

/-! ## Properties of the Version ordering -/

theorem verEq_refl : ∀ a : List Int, verEq a a = true
  | [] => rfl
  | _ :: xs => by simp [verEq, verEq_refl xs]

theorem verEq_symm : ∀ a b : List Int, verEq a b = verEq b a
  | [], [] => rfl
  | [], _ :: _ => rfl
  | _ :: _, [] => rfl
  | a :: as, b :: bs => by
    simp only [verEq, Bool.and_eq_true]
    rw [BEq.comm, verEq_symm as bs]

theorem verLt_irrefl : ∀ a : List Int, verLt a a = false
  | [] => rfl
  | x :: xs => by simp [verLt, lt_irrefl, verLt_irrefl xs]

theorem verEq_verLt : ∀ a b : List Int, verEq a b = true → verLt a b = false
  | [], [], _ => rfl
  | [], _ :: _, h => by simp [verEq] at h
  | _ :: _, [], h => by simp [verEq] at h
  | a :: as, b :: bs, h => by
    simp only [verEq, Bool.and_eq_true, beq_iff_eq] at h
    obtain ⟨rfl, h2⟩ := h
    simp [verLt, lt_irrefl, verEq_verLt as bs h2]

theorem verLt_asymm : ∀ a b : List Int, verLt a b = true → verLt b a = false
  | [], [], h => by simp [verLt] at h
  | [], _ :: _, _ => rfl
  | _ :: _, [], h => by simp [verLt] at h
  | a :: as, b :: bs, h => by
    simp only [verLt] at h ⊢
    rcases lt_trichotomy a b with hab | rfl | hab
    · simp [hab, not_lt_of_gt hab]
    · simp only [lt_irrefl, if_false]
      exact verLt_asymm as bs (by simpa [lt_irrefl] using h)
    · simp [hab, not_lt_of_gt hab] at h
  termination_by a _ => a.length

theorem verLt_trans :
    ∀ a b c : List Int, verLt a b = true → verLt b c = true → verLt a c = true
  | [], [], _, h1, _ => by simp [verLt] at h1
  | [], _ :: _, [], _, h2 => by simp [verLt] at h2
  | [], _ :: _, _ :: _, _, _ => rfl
  | _ :: _, [], _, h1, _ => by simp [verLt] at h1
  | _ :: _, _ :: _, [], _, h2 => by simp [verLt] at h2
  | a :: as, b :: bs, c :: cs, h1, h2 => by
    simp only [verLt] at h1 h2 ⊢
    rcases lt_trichotomy a b with hab | rfl | hab
    · rcases lt_trichotomy b c with hbc | rfl | hbc
      · simp [lt_trans hab hbc]
      · simp [hab]
      · simp [hbc, not_lt_of_gt hbc] at h2
    · rcases lt_trichotomy a c with hac | rfl | hac
      · simp [hac]
      · simp only [lt_irrefl, if_false] at h1 h2 ⊢
        exact verLt_trans as bs cs h1 h2
      · simp [hac, not_lt_of_gt hac] at h2
    · simp [hab, not_lt_of_gt hab] at h1
  termination_by a _ _ => a.length

theorem verLt_total :
    ∀ a b : List Int, verLt a b = true ∨ verEq a b = true ∨ verLt b a = true
  | [], [] => Or.inr (Or.inl rfl)
  | [], _ :: _ => Or.inl rfl
  | _ :: _, [] => Or.inr (Or.inr rfl)
  | a :: as, b :: bs => by
    rcases lt_trichotomy a b with hab | rfl | hab
    · exact Or.inl (by simp [verLt, hab])
    · rcases verLt_total as bs with h | h | h
      · exact Or.inl (by simp [verLt, lt_irrefl, h])
      · exact Or.inr (Or.inl (by simp [verEq, h]))
      · exact Or.inr (Or.inr (by simp [verLt, lt_irrefl, h]))
    · exact Or.inr (Or.inr (by simp [verLt, hab]))

theorem verLt_self_append :
    ∀ (a t : List Int), t ≠ [] → verLt a (a ++ t) = true
  | [], [], h => absurd rfl h
  | [], _ :: _, _ => rfl
  | x :: xs, t, h => by
    simp only [List.cons_append, verLt, lt_irrefl, if_false]
    exact verLt_self_append xs t h

/-- A strictly greater remote version refutes the not-strictly-greater
guard of self_update: verLt this latest implies verLe latest this is
false. -/
theorem verLe_eq_false_of_verLt {a b : List Int} (h : verLt a b = true) :
    verLe b a = false := by
  have h1 : verLt b a = false := verLt_asymm a b h
  have h2 : verEq b a = false := by
    by_contra hc
    have : verEq b a = true := by
      cases he : verEq b a
      · exact absurd he hc
      · rfl
    rw [verEq_symm] at this
    exact absurd (verEq_verLt a b this) (by simp [h])
  simp [verLe, h1, h2]

/-! ## Claim theorems: versions, process, failure handling -/

/-- C3: the Version ordering on version strings is a strict total order
consistent with numeric component-by-component lexicographic comparison:
it is transitive and irreflexive and any two parsed versions are
comparable; when one component sequence is a strict prefix of the other,
the shorter one is lesser; in particular Version 1.2 is less than
Version 1.2.0. -/
theorem fsl_C3_version_strict_total_order (a b c : String) :
    (verLt (verComponents a) (verComponents b) = true →
      verLt (verComponents b) (verComponents c) = true →
      verLt (verComponents a) (verComponents c) = true) ∧
    verLt (verComponents a) (verComponents a) = false ∧
    (verLt (verComponents a) (verComponents b) = true ∨
      verEq (verComponents a) (verComponents b) = true ∨
      verLt (verComponents b) (verComponents a) = true) ∧
    (∀ t : List Int, t ≠ [] →
      verLt (verComponents a) (verComponents a ++ t) = true) ∧
    verLt (verComponents "1.2") (verComponents "1.2.0") = true := by
  refine ⟨verLt_trans _ _ _, verLt_irrefl _, verLt_total _ _,
    verLt_self_append _, ?_⟩
  decide

/-- Witness for C3 at concrete version strings. -/
theorem fsl_C3_version_strict_total_order_witness :
    verLt (verComponents "1.2") (verComponents "2.0.1") = true :=
  (fsl_C3_version_strict_total_order "1.2" "1.3" "2.0.1").1
    (by decide) (by decide)

/-- C2: the externally-observed return code of a Process is None
whenever the underlying OS process has not exited or either reader
thread is still alive, and a non-null return code is observable only
once the process has exited and both reader threads have finished
(equivalently, have consumed their streams to end-of-stream). -/
theorem fsl_C2_returncode_gating (p : ProcessView) :
    ((p.popen_returncode = none ∨ p.stdout_alive = true ∨
        p.stderr_alive = true) → processReturncode p = none) ∧
    (∀ code, processReturncode p = some code →
      p.popen_returncode = some code ∧ p.stdout_alive = false ∧
        p.stderr_alive = false) := by
  constructor
  · rintro (h | h | h) <;> simp [processReturncode, h]
  · intro code h
    by_cases h1 : p.popen_returncode.isNone
    · simp [processReturncode, h1] at h
    · by_cases h2 : p.stdout_alive <;> by_cases h3 : p.stderr_alive <;>
        [skip; skip; skip; simp [processReturncode, h1, h2, h3] at h ⊢] <;>
        simp [processReturncode, h1, h2, h3, h] at h ⊢

/-- Witness for C2 at a concrete process state. -/
theorem fsl_C2_returncode_gating_witness :
    processReturncode ⟨some 0, true, false⟩ = none :=
  (fsl_C2_returncode_gating ⟨some 0, true, false⟩).1 (Or.inr (Or.inl rfl))

/-- C1: when an error reaches handle_error, the process exits with a
non-zero status; an in-place update never has its destination removed
(its contents are untouched); otherwise an existing destination is
removed when nothing was moved aside; and whenever a prior installation
was moved aside, its contents are restored at the destination. -/
theorem fsl_C1_failure_rollback {α : Type} (s : ErrCtx α) :
    (handleErrorCleanup s).2 ≠ 0 ∧
    (∀ d : α, pyTruthy s.update = true → s.destdir = some d →
      ((handleErrorCleanup s).1).destdir = some d) ∧
    (pyTruthy s.update = false → s.old_destdir = none →
      ((handleErrorCleanup s).1).destdir = none) ∧
    (∀ o : α, pyTruthy s.update = false → s.old_destdir = some o →
      ((handleErrorCleanup s).1).destdir = some o ∧
        ((handleErrorCleanup s).1).old_destdir = none) := by
  refine ⟨by simp [handleErrorCleanup], ?_, ?_, ?_⟩
  · intro d hu hd
    simp [handleErrorCleanup, hu, hd]
  · intro hu ho
    cases hd : s.destdir <;> simp [handleErrorCleanup, hu, ho, hd]
  · intro o hu ho
    cases hd : s.destdir <;> simp [handleErrorCleanup, hu, ho, hd]

/-- Witness for C1: a failed fresh install over a moved-aside prior
installation restores the prior contents and exits non-zero. -/
theorem fsl_C1_failure_rollback_witness :
    (handleErrorCleanup (α := String)
        ⟨none, some "partial", some "preserved"⟩).2 ≠ 0 ∧
      ((handleErrorCleanup (α := String)
        ⟨none, some "partial", some "preserved"⟩).1).destdir =
          some "preserved" := by
  refine ⟨(fsl_C1_failure_rollback ⟨none, some "partial", some "preserved"⟩).1,
    ((fsl_C1_failure_rollback
      ⟨none, some "partial", some "preserved"⟩).2.2.2 "preserved"
        (by decide) rfl).1⟩

/-- C4: self_update is a no-op when the manifest installer version is
not strictly greater than the running version; with a strictly greater
version but a checksum mismatch it warns and returns; with a strictly
greater version and a matching checksum, or with verification disabled,
it re-executes the downloaded file with the interpreter, the original
argument tail, and a forced --no_self_update flag. -/
theorem fsl_C4_self_update (thisver latestver : String)
    (checksum checksumOk : Bool) (executable tmpf : String)
    (argvTail : List String) :
    (verLe (verComponents latestver) (verComponents thisver) = true →
      selfUpdate thisver latestver checksum checksumOk executable tmpf
        argvTail = .noop) ∧
    (verLt (verComponents thisver) (verComponents latestver) = true →
      checksum = true → checksumOk = false →
      selfUpdate thisver latestver checksum checksumOk executable tmpf
        argvTail = .checksumWarn) ∧
    (verLt (verComponents thisver) (verComponents latestver) = true →
      (checksumOk = true ∨ checksum = false) →
      selfUpdate thisver latestver checksum checksumOk executable tmpf
        argvTail =
        .execNew ([executable, tmpf] ++ argvTail ++ ["--no_self_update"])) := by
  refine ⟨fun hle => by simp [selfUpdate, hle], ?_, ?_⟩
  · intro hgt hc hok
    simp [selfUpdate, verLe_eq_false_of_verLt hgt, hc, hok]
  · rintro hgt (hok | hc)
    · simp [selfUpdate, verLe_eq_false_of_verLt hgt, hok]
    · simp [selfUpdate, verLe_eq_false_of_verLt hgt, hc]

/-- Witness for C4 at concrete versions: a newer manifest version with a
valid checksum re-launches with the forced flag. -/
theorem fsl_C4_self_update_witness :
    selfUpdate "1.9.0" "2.0.0" true true "python" "tmpf" ["-d", "dest"] =
      .execNew ["python", "tmpf", "-d", "dest", "--no_self_update"] :=
  (fsl_C4_self_update "1.9.0" "2.0.0" true true "python" "tmpf"
    ["-d", "dest"]).2.2 (by decide) (Or.inl rfl)

/-- C10: the access to Context.admin_password that acquires the
credential (nothing cached, need-admin not already resolved to False)
stores the validated password in the cache but returns None; a
subsequent access returns the cached credential. -/
theorem fsl_C10_admin_password_first_access (cache : Option String)
    (needAdmin : Option Bool) (acquired : String) :
    (cache = none → needAdmin ≠ some false →
      adminPasswordAccess cache needAdmin acquired =
        (none, some acquired)) ∧
    (∀ p : String, cache = some p →
      adminPasswordAccess cache needAdmin acquired = (some p, some p)) := by
  constructor
  · rintro rfl hn
    simp [adminPasswordAccess, hn]
  · rintro p rfl
    rfl

/-- Witness for C10: the acquiring access caches the password and
returns None, and re-reading the updated cache returns it. -/
theorem fsl_C10_admin_password_first_access_witness :
    adminPasswordAccess none (some true) "hunter2" = (none, some "hunter2") ∧
      adminPasswordAccess (some "hunter2") (some true) "hunter2" =
        (some "hunter2", some "hunter2") :=
  ⟨(fsl_C10_admin_password_first_access none (some true) "hunter2").1 rfl
      (by decide),
    (fsl_C10_admin_password_first_access (some "hunter2") (some true)
      "hunter2").2 "hunter2" rfl⟩

/-! ## Claim theorems: manifest and build resolution -/

theorem augmentEntry_fst (e : String × VersionsEntry) :
    (augmentEntry e).1 = e.1 := by
  obtain ⟨k, v⟩ := e
  unfold augmentEntry
  split
  · rfl
  · cases v <;> rfl

theorem addBuildVersions_lookup (m : Manifest) (k : String) :
    (addBuildVersions m).lookup k =
      (m.lookup k).map (fun v => (augmentEntry (k, v)).2) := by
  unfold addBuildVersions Manifest.lookup
  rw [List.find?_map]
  have hp : ((fun e : String × VersionsEntry => e.1 == k) ∘ augmentEntry) =
      (fun e : String × VersionsEntry => e.1 == k) :=
    funext fun e => by
      rw [Function.comp_apply, augmentEntry_fst]
  rw [hp]
  cases hf : List.find? (fun e : String × VersionsEntry => e.1 == k)
      m.versions with
  | none => rfl
  | some e =>
    have he : e.1 = k := by
      have := List.find?_some hf
      simpa using this
    obtain ⟨k1, v⟩ := e
    simp only [Option.map_map, Option.map_some, Function.comp_apply]
    cases he
    rfl

theorem addBuildVersions_keys (m : Manifest) :
    (addBuildVersions m).versions.map (·.1) = m.versions.map (·.1) := by
  unfold addBuildVersions
  rw [List.map_map]
  have hp : ((·.1) ∘ augmentEntry :
      String × VersionsEntry → String) = (·.1) :=
    funext fun e => augmentEntry_fst e
  rw [hp]

/-- Resolution of a present, non-alias version reduces to the first
exact-platform match among that version's builds, augmented with the
version string. -/
theorem resolveBuild_builds (m : Manifest) (v platform : String)
    (bs : List ManifestBuild)
    (hv : v ≠ "latest") (hbs : m.lookup v = some (.builds bs)) :
    resolveBuild m v platform =
      match bs.find? (fun b => b.platform == platform) with
      | some b => .ok { b with version := some v }
      | none => .error (.platformNotAvailable platform) := by
  have hne : (v == "latest") = false := by
    simpa using hv
  have hlook : (addBuildVersions m).lookup v =
      some (.builds (bs.map (fun b => { b with version := some v }))) := by
    rw [addBuildVersions_lookup, hbs]
    simp [augmentEntry, hne]
  unfold resolveBuild contextBuild
  rw [hlook, hne]
  simp only [Option.isNone_some, Bool.false_eq_true, if_false, if_neg]
  rw [hlook]
  dsimp only
  rw [List.find?_map]
  have hp : ((fun b : ManifestBuild => b.platform == platform) ∘
      (fun b => { b with version := some v })) =
      (fun b : ManifestBuild => b.platform == platform) :=
    funext fun b => rfl
  rw [hp]
  cases bs.find? (fun b => b.platform == platform) <;> rfl

/-- Resolution of the latest alias resolves the alias target first. -/
theorem resolveBuild_latest (m : Manifest) (t platform : String)
    (bs : List ManifestBuild)
    (hlatest : m.lookup "latest" = some (.aliasTo t))
    (ht : t ≠ "latest")
    (hbs : m.lookup t = some (.builds bs)) :
    resolveBuild m "latest" platform =
      match bs.find? (fun b => b.platform == platform) with
      | some b => .ok { b with version := some t }
      | none => .error (.platformNotAvailable platform) := by
  have hne : (t == "latest") = false := by
    simpa using ht
  have hlookL : (addBuildVersions m).lookup "latest" =
      some (.aliasTo t) := by
    rw [addBuildVersions_lookup, hlatest]
    rfl
  have hlookT : (addBuildVersions m).lookup t =
      some (.builds (bs.map (fun b => { b with version := some t }))) := by
    rw [addBuildVersions_lookup, hbs]
    simp [augmentEntry, hne]
  have htrue : (("latest" : String) == "latest") = true := by decide
  unfold resolveBuild contextBuild
  rw [hlookL, htrue]
  simp only [Option.isNone_some, Bool.false_eq_true, if_false, if_true]
  rw [hlookT]
  dsimp only
  rw [List.find?_map]
  have hp : ((fun b : ManifestBuild => b.platform == platform) ∘
      (fun b => { b with version := some t })) =
      (fun b : ManifestBuild => b.platform == platform) :=
    funext fun b => rfl
  rw [hp]
  cases bs.find? (fun b => b.platform == platform) <;> rfl

/-- C5 counterexample: requesting 9.9.9 against a manifest whose
versions keys are latest and 6.2.0 fails with an error listing
"latest, 6.2.0" - the latest alias is included, not excluded, so the
error does not list exactly 6.2.0. -/
theorem fsl_C5_unknown_version_counterexample :
    resolveBuild exampleManifest "9.9.9" "linux-64" =
      .error (.unknownVersion "9.9.9" "latest, 6.2.0") ∧
    ("latest, 6.2.0" : String) ≠ "6.2.0" := by
  constructor
  · decide
  · decide

/-- C5 as amended: a requested version that is not a key of the
manifest's versions map fails with an error enumerating every key of
the versions map, the latest alias included. -/
theorem fsl_C5_unknown_version_error (m : Manifest) (v platform : String)
    (h : m.lookup v = none) :
    resolveBuild m v platform =
      .error (.unknownVersion v
        (String.intercalate ", " (m.versions.map (·.1)))) := by
  have h2 : (addBuildVersions m).lookup v = none := by
    rw [addBuildVersions_lookup, h]
    rfl
  unfold resolveBuild contextBuild
  rw [h2, addBuildVersions_keys]
  rfl

/-- Witness for C5: the amended error listing at the concrete
manifest. -/
theorem fsl_C5_unknown_version_error_witness :
    resolveBuild exampleManifest "9.9.9" "linux-64" =
      .error (.unknownVersion "9.9.9" "latest, 6.2.0") :=
  fsl_C5_unknown_version_error exampleManifest "9.9.9" "linux-64" (by decide)

/-- C9: for a manifest holding the requested version, the latest alias
resolves to its target, the first build entry whose platform equals the
host platform exactly is returned augmented with the resolved version
string, and resolution fails when no entry's platform matches exactly;
in particular the end-to-end example resolves latest on linux-64 to the
6.2.0 build at u1. -/
theorem fsl_C9_build_selection (m : Manifest) (platform : String) :
    (∀ t bs, m.lookup "latest" = some (.aliasTo t) → t ≠ "latest" →
      m.lookup t = some (.builds bs) →
      (∀ b, bs.find? (fun x => x.platform == platform) = some b →
        resolveBuild m "latest" platform =
          .ok { b with version := some t }) ∧
      (bs.find? (fun x => x.platform == platform) = none →
        resolveBuild m "latest" platform =
          .error (.platformNotAvailable platform))) ∧
    (∀ v bs, v ≠ "latest" → m.lookup v = some (.builds bs) →
      (∀ b, bs.find? (fun x => x.platform == platform) = some b →
        resolveBuild m v platform = .ok { b with version := some v }) ∧
      (bs.find? (fun x => x.platform == platform) = none →
        resolveBuild m v platform =
          .error (.platformNotAvailable platform))) ∧
    resolveBuild exampleManifest "latest" "linux-64" =
      .ok ⟨"linux-64", "u1", "h1", some "6.2.0"⟩ := by
  refine ⟨?_, ?_, by decide⟩
  · intro t bs hl ht hbs
    constructor
    · intro b hb
      rw [resolveBuild_latest m t platform bs hl ht hbs, hb]
    · intro hb
      rw [resolveBuild_latest m t platform bs hl ht hbs, hb]
  · intro v bs hv hbs
    constructor
    · intro b hb
      rw [resolveBuild_builds m v platform bs hv hbs, hb]
    · intro hb
      rw [resolveBuild_builds m v platform bs hv hbs, hb]

/-- Witness for C9 at the end-to-end example manifest. -/
theorem fsl_C9_build_selection_witness :
    resolveBuild exampleManifest "latest" "linux-64" =
      .ok ⟨"linux-64", "u1", "h1", some "6.2.0"⟩ :=
  ((fsl_C9_build_selection exampleManifest "linux-64").1 "6.2.0"
    [⟨"linux-64", "u1", "h1", none⟩] (by decide) (by decide) (by decide)).1
    ⟨"linux-64", "u1", "h1", none⟩ (by decide)

/-- C6 (spec-modelled): any emitted CUDA constraint is of the
major-series form built from an effective CUDA version and appears only
on an environment flagged cuda_enabled; and an explicit request of
"none" yields no constraint, whatever was detected on the host. -/
theorem fsl_C6_cuda_constraint (pref : CudaPreference)
    (detected : Option (Nat × Nat)) (enabled : Bool) :
    (∀ c, envCudaConstraint enabled pref detected = some c →
      enabled = true ∧ ∃ major minor,
        effectiveCuda pref detected = some (major, minor) ∧
        c = ">=" ++ toString major ++ "." ++ toString minor ++ ",<" ++
          toString (major + 1)) ∧
    envCudaConstraint enabled .disabled detected = none := by
  constructor
  · intro c hc
    cases he : enabled with
    | false =>
      rw [he] at hc
      simp [envCudaConstraint] at hc
    | true =>
      rw [he] at hc
      unfold envCudaConstraint at hc
      rw [if_pos rfl] at hc
      cases heff : effectiveCuda pref detected with
      | none =>
        rw [heff] at hc
        exact Option.noConfusion hc
      | some v =>
        obtain ⟨M, mi⟩ := v
        rw [heff] at hc
        have hc2 : cudaConstraint M mi = c := by
          injection hc
        exact ⟨rfl, M, mi, rfl, by rw [← hc2]; rfl⟩
  · cases enabled <;> rfl

/-- Witness for C6: auto-detection of CUDA 11.2 on a cuda_enabled
environment, and an explicit request of none with the same detection. -/
theorem fsl_C6_cuda_constraint_witness :
    (true = true ∧ ∃ major minor,
      effectiveCuda .auto (some (11, 2)) = some (major, minor) ∧
      (">=11.2,<12" : String) = ">=" ++ toString major ++ "." ++
        toString minor ++ ",<" ++ toString (major + 1)) ∧
    envCudaConstraint true .disabled (some (11, 2)) = none :=
  ⟨(fsl_C6_cuda_constraint .auto (some (11, 2)) true).1 ">=11.2,<12"
      (by decide),
    (fsl_C6_cuda_constraint .disabled (some (11, 2)) true).2⟩

/-! ## String-primitive lemmas for patch_file -/

theorem pySplitChar_ne_nil (sep : Char) : ∀ s : PyStr, pySplitChar sep s ≠ []
  | [] => by simp [pySplitChar]
  | c :: rest => by
    unfold pySplitChar
    split
    · simp
    · cases hs : pySplitChar sep rest <;> simp

theorem mem_pySplitChar (sep : Char) :
    ∀ (s : PyStr), ∀ l ∈ pySplitChar sep s, sep ∉ l
  | [] => by
    intro l hl
    simp [pySplitChar] at hl
    simp [hl]
  | c :: rest => by
    intro l hl
    unfold pySplitChar at hl
    by_cases hc : c = sep
    · rw [if_pos hc] at hl
      rcases List.mem_cons.mp hl with rfl | hl
      · simp
      · exact mem_pySplitChar sep rest l hl
    · rw [if_neg hc] at hl
      cases hs : pySplitChar sep rest with
      | nil => exact absurd hs (pySplitChar_ne_nil sep rest)
      | cons l0 ls =>
        rw [hs] at hl
        rcases List.mem_cons.mp hl with rfl | hl
        · intro hmem
          rcases List.mem_cons.mp hmem with rfl | hmem
          · exact hc rfl
          · exact mem_pySplitChar sep rest l0 (hs ▸ List.mem_cons_self l0 ls)
              hmem
        · exact mem_pySplitChar sep rest l (hs ▸ List.mem_cons_of_mem l0 hl)

theorem pySplitChar_no_sep (sep : Char) :
    ∀ s : PyStr, sep ∉ s → pySplitChar sep s = [s]
  | [], _ => rfl
  | c :: rest, h => by
    have hc : ¬ c = sep := fun e => h (e ▸ List.mem_cons_self c rest)
    have hr : sep ∉ rest := fun e => h (List.mem_cons_of_mem c e)
    unfold pySplitChar
    rw [if_neg hc, pySplitChar_no_sep sep rest hr]

theorem pySplitChar_append (sep : Char) :
    ∀ (l t : PyStr), sep ∉ l →
      pySplitChar sep (l ++ sep :: t) = l :: pySplitChar sep t
  | [], t, _ => by simp [pySplitChar]
  | c :: ls, t, h => by
    have hc : ¬ c = sep := fun e => h (e ▸ List.mem_cons_self c ls)
    have hr : sep ∉ ls := fun e => h (List.mem_cons_of_mem c e)
    show (if c = sep then [] :: pySplitChar sep (ls ++ sep :: t)
        else
          match pySplitChar sep (ls ++ sep :: t) with
          | l :: ls2 => (c :: l) :: ls2
          | [] => [[c]]) = (c :: ls) :: pySplitChar sep t
    rw [if_neg hc, pySplitChar_append sep ls t hr]

theorem joinNl_cons_cons (x y : PyStr) (rest : List PyStr) :
    joinNl (x :: y :: rest) = x ++ '\n' :: joinNl (y :: rest) := rfl

theorem splitNl_joinNl :
    ∀ R : List PyStr, R ≠ [] → (∀ l ∈ R, '\n' ∉ l) →
      splitNl (joinNl R) = R
  | [], h, _ => absurd rfl h
  | [x], _, h => by
    have hx : '\n' ∉ x := h x (List.mem_cons_self x [])
    show pySplitChar '\n' (joinNl [x]) = [x]
    exact pySplitChar_no_sep '\n' x hx
  | x :: y :: rest, _, h => by
    have hx : '\n' ∉ x := h x (List.mem_cons_self x (y :: rest))
    have hr : ∀ l ∈ y :: rest, '\n' ∉ l :=
      fun l hl => h l (List.mem_cons_of_mem x hl)
    show pySplitChar '\n' (joinNl (x :: y :: rest)) = x :: y :: rest
    rw [joinNl_cons_cons, pySplitChar_append '\n' x (joinNl (y :: rest)) hx]
    rw [show pySplitChar '\n' (joinNl (y :: rest)) =
      splitNl (joinNl (y :: rest)) from rfl]
    rw [splitNl_joinNl (y :: rest) (by simp) hr]

theorem mem_joinNl :
    ∀ (R : List PyStr) (c : Char), c ∈ joinNl R →
      c = '\n' ∨ ∃ l ∈ R, c ∈ l
  | [], c, hc => by simp [joinNl] at hc
  | [x], c, hc => Or.inr ⟨x, List.mem_cons_self x [], hc⟩
  | x :: y :: rest, c, hc => by
    rw [joinNl_cons_cons] at hc
    rcases List.mem_append.mp hc with hc | hc
    · exact Or.inr ⟨x, List.mem_cons_self x (y :: rest), hc⟩
    · rcases List.mem_cons.mp hc with rfl | hc
      · exact Or.inl rfl
      · rcases mem_joinNl (y :: rest) c hc with h | ⟨l, hl, hcl⟩
        · exact Or.inl h
        · exact Or.inr ⟨l, List.mem_cons_of_mem x hl, hcl⟩

theorem joinNl_getLast? :
    ∀ (R : List PyStr) (last : PyStr), R.getLast? = some last →
      last ≠ [] → (joinNl R).getLast? = last.getLast?
  | [], _, h, _ => by simp at h
  | [x], last, h, _ => by
    simp only [List.getLast?_singleton, Option.some_inj] at h
    subst h
    rfl
  | x :: y :: rest, last, h, hne => by
    have h2 : (y :: rest).getLast? = some last := by
      rw [← h]
      exact (List.getLast?_append_cons [x] y rest).symm
    have ih := joinNl_getLast? (y :: rest) last h2 hne
    have hJne : joinNl (y :: rest) ≠ [] := by
      intro he
      rw [he] at ih
      cases hl : last.getLast? with
      | none =>
        exact hne (List.getLast?_eq_none_iff.mp hl)
      | some c =>
        rw [hl] at ih
        exact Option.noConfusion ih
    rw [joinNl_cons_cons]
    rw [List.getLast?_append_of_ne_nil x (by simp)]
    rw [show ('\n' :: joinNl (y :: rest)) = ['\n'] ++ joinNl (y :: rest)
      from rfl]
    rw [List.getLast?_append_of_ne_nil ['\n'] hJne]
    exact ih

theorem univNl_cons_ne (c : Char) (rest : PyStr) (hc : c ≠ '\r') :
    univNl (c :: rest) = c :: univNl rest := by
  unfold univNl
  split <;> simp_all
  exact univNl.eq_def _

theorem univNl_eq_self : ∀ s : PyStr, '\r' ∉ s → univNl s = s
  | [], _ => rfl
  | c :: rest, h => by
    have hc : c ≠ '\r' := fun e => h (e ▸ List.mem_cons_self c rest)
    have hr : '\r' ∉ rest := fun e => h (List.mem_cons_of_mem c e)
    rw [univNl_cons_ne c rest hc, univNl_eq_self rest hr]

theorem joinNl_no_cr (R : List PyStr) (h : ∀ l ∈ R, '\r' ∉ l) :
    '\r' ∉ joinNl R := by
  intro hc
  rcases mem_joinNl R '\r' hc with he | ⟨l, hl, hcl⟩
  · exact absurd he (by decide)
  · exact h l hl hcl

theorem pyReadLines_joinNl (R : List PyStr) (last : PyStr)
    (hlast : R.getLast? = some last) (hne : last ≠ [])
    (hnl : ∀ l ∈ R, '\n' ∉ l) : pyReadLines (joinNl R) = R := by
  have hRne : R ≠ [] := by
    intro he
    rw [he] at hlast
    exact Option.noConfusion hlast
  have hlastR : last ∈ R := by
    obtain ⟨hx, he⟩ := List.mem_getLast?_eq_getLast hlast
    exact he ▸ List.getLast_mem hx
  have hJlast : (joinNl R).getLast? = last.getLast? :=
    joinNl_getLast? R last hlast hne
  have hJne : joinNl R ≠ [] := by
    intro he
    rw [he] at hJlast
    cases hl : last.getLast? with
    | none => exact hne (List.getLast?_eq_none_iff.mp hl)
    | some c =>
      rw [hl] at hJlast
      exact Option.noConfusion hJlast
  have hJlast2 : (joinNl R).getLast? ≠ some '\n' := by
    rw [hJlast]
    intro he
    have hmem : '\n' ∈ last := by
      obtain ⟨hx, hx2⟩ := List.mem_getLast?_eq_getLast he
      exact hx2 ▸ List.getLast_mem hx
    exact hnl last hlastR hmem
  unfold pyReadLines
  rw [if_neg hJne, if_neg hJlast2]
  exact splitNl_joinNl R hRne hnl

theorem mem_pyStrip (c : Char) (s : PyStr) (h : c ∈ pyStrip s) : c ∈ s := by
  have hpre := List.rdropWhile_prefix pyWhitespace
    (s.dropWhile pyWhitespace)
  have hsuf := List.dropWhile_suffix (l := s) pyWhitespace
  exact hsuf.sublist.subset (hpre.sublist.subset h)

theorem pyStrip_idem (s : PyStr) : pyStrip (pyStrip s) = pyStrip s := by
  have hY : (pyStrip s).dropWhile pyWhitespace = pyStrip s := by
    rcases hYE : pyStrip s with _ | ⟨c, Y2⟩
    · rfl
    · have hpre := List.rdropWhile_prefix pyWhitespace
        (s.dropWhile pyWhitespace)
      rw [show List.rdropWhile pyWhitespace (s.dropWhile pyWhitespace) =
        pyStrip s from rfl, hYE] at hpre
      obtain ⟨t, ht⟩ := hpre
      have hfix := List.dropWhile_idempotent pyWhitespace s
      rw [← ht, List.cons_append, List.dropWhile_cons] at hfix
      have hnc : ¬ pyWhitespace c = true := by
        intro hpc
        rw [if_pos hpc] at hfix
        have hle := (List.dropWhile_suffix
          (l := Y2 ++ t) pyWhitespace).sublist.length_le
        rw [hfix] at hle
        simp at hle
      rw [List.dropWhile_cons, if_neg hnc]
  show List.rdropWhile pyWhitespace ((pyStrip s).dropWhile pyWhitespace) =
    pyStrip s
  rw [hY]
  show List.rdropWhile pyWhitespace
    (List.rdropWhile pyWhitespace (s.dropWhile pyWhitespace)) = pyStrip s
  rw [List.rdropWhile_idempotent]
  rfl

theorem univNl_no_cr (s : PyStr) : '\r' ∉ univNl s := by
  induction s using univNl.induct with
  | case1 => simp [univNl]
  | case2 rest ih =>
    rw [show univNl ('\r' :: '\n' :: rest) = '\n' :: univNl rest from rfl]
    intro h
    rcases List.mem_cons.mp h with he | h2
    · exact absurd he (by decide)
    · exact ih h2
  | case3 rest h1 ih =>
    have he : univNl ('\r' :: rest) = '\n' :: univNl rest := by
      conv_lhs => rw [univNl.eq_def]
      split <;> try simp_all
      rename_i hne heq
      obtain ⟨he1, he2⟩ := heq
      exact absurd he1.symm hne
    rw [he]
    intro h
    rcases List.mem_cons.mp h with he2 | h2
    · exact absurd he2 (by decide)
    · exact ih h2
  | case4 c rest h1 h2 ih =>
    rw [univNl_cons_ne c rest (fun e => h2 e)]
    intro h
    rcases List.mem_cons.mp h with he2 | h3
    · exact h2 he2.symm
    · exact ih h3

theorem mem_of_mem_pySplitChar (sep : Char) :
    ∀ (s : PyStr), ∀ l ∈ pySplitChar sep s, ∀ c ∈ l, c ∈ s
  | [] => by
    intro l hl c hc
    simp [pySplitChar] at hl
    subst hl
    simp at hc
  | d :: rest => by
    intro l hl c hc
    unfold pySplitChar at hl
    by_cases hd : d = sep
    · rw [if_pos hd] at hl
      rcases List.mem_cons.mp hl with rfl | hl
      · simp at hc
      · exact List.mem_cons_of_mem d
          (mem_of_mem_pySplitChar sep rest l hl c hc)
    · rw [if_neg hd] at hl
      cases hs : pySplitChar sep rest with
      | nil => exact absurd hs (pySplitChar_ne_nil sep rest)
      | cons l0 ls =>
        rw [hs] at hl
        rcases List.mem_cons.mp hl with rfl | hl
        · rcases List.mem_cons.mp hc with rfl | hc2
          · exact List.mem_cons_self c rest
          · exact List.mem_cons_of_mem d
              (mem_of_mem_pySplitChar sep rest l0
                (hs ▸ List.mem_cons_self l0 ls) c hc2)
        · exact List.mem_cons_of_mem d
            (mem_of_mem_pySplitChar sep rest l
              (hs ▸ List.mem_cons_of_mem l0 hl) c hc)

theorem listIndex?_eq_none (x : PyStr) :
    ∀ l : List PyStr, x ∉ l → listIndex? x l = none
  | [], _ => rfl
  | y :: ys, h => by
    have hy : ¬ y = x := fun e => h (e ▸ List.mem_cons_self y ys)
    have h2 : x ∉ ys := fun e => h (List.mem_cons_of_mem y e)
    simp [listIndex?, hy, listIndex?_eq_none x ys h2]

theorem listIndex?_append_cons (x : PyStr) :
    ∀ (A B : List PyStr), x ∉ A →
      listIndex? x (A ++ x :: B) = some A.length
  | [], B, _ => by simp [listIndex?]
  | a :: A2, B, h => by
    have ha : ¬ a = x := fun e => h (e ▸ List.mem_cons_self a A2)
    have h2 : x ∉ A2 := fun e => h (List.mem_cons_of_mem a e)
    simp [listIndex?, ha, listIndex?_append_cons x A2 B h2]

theorem listIndex?_take (x : PyStr) :
    ∀ (l : List PyStr) (idx : Nat), listIndex? x l = some idx →
      x ∉ l.take idx ∧ idx ≤ l.length
  | [], idx, h => by simp [listIndex?] at h
  | y :: ys, idx, h => by
    by_cases hy : y = x
    · rw [listIndex?, if_pos hy] at h
      injection h with h
      subst h
      simp
    · rw [listIndex?, if_neg hy] at h
      cases hi : listIndex? x ys with
      | none =>
        rw [hi] at h
        exact Option.noConfusion h
      | some j =>
        rw [hi] at h
        have hidx : j + 1 = idx := by
          injection h
        subst hidx
        obtain ⟨h1, h2⟩ := listIndex?_take x ys j hi
        constructor
        · intro hmem
          rw [List.take_succ_cons] at hmem
          rcases List.mem_cons.mp hmem with rfl | hm2
          · exact hy rfl
          · exact h1 hm2
        · simpa using h2

theorem listIndex?_not_mem (x : PyStr) :
    ∀ l : List PyStr, listIndex? x l = none → x ∉ l
  | [], _ => by simp
  | y :: ys, h => by
    unfold listIndex? at h
    by_cases hy : y = x
    · rw [if_pos hy] at h
      exact Option.noConfusion h
    · rw [if_neg hy] at h
      intro hmem
      rcases List.mem_cons.mp hmem with rfl | hm
      · exact hy rfl
      · cases hi : listIndex? x ys with
        | none => exact listIndex?_not_mem x ys hi hm
        | some j =>
          rw [hi] at h
          exact Option.noConfusion h

theorem pyReadLines_subset (s : PyStr) :
    ∀ x ∈ pyReadLines s, x ∈ splitNl s := by
  intro x hx
  unfold pyReadLines at hx
  by_cases h0 : s = []
  · rw [if_pos h0] at hx
    simp at hx
  · rw [if_neg h0] at hx
    by_cases h1 : s.getLast? = some '\n'
    · rw [if_pos h1] at hx
      exact (List.dropLast_prefix (splitNl s)).sublist.subset hx
    · rw [if_neg h1] at hx
      exact hx

theorem patchLines_strip (fc : Option PyStr) :
    ∀ l ∈ patchLines fc, pyStrip l = l := by
  intro l hl
  cases fc with
  | none => simp [patchLines] at hl
  | some s =>
    unfold patchLines at hl
    obtain ⟨x, hx, rfl⟩ := List.mem_map.mp hl
    exact pyStrip_idem x

theorem patchLines_no_nl (fc : Option PyStr) :
    ∀ l ∈ patchLines fc, '\n' ∉ l := by
  intro l hl hc
  cases fc with
  | none => simp [patchLines] at hl
  | some s =>
    unfold patchLines at hl
    obtain ⟨x, hx, rfl⟩ := List.mem_map.mp hl
    have hcx : '\n' ∈ x := mem_pyStrip '\n' x hc
    have hxs : x ∈ splitNl (univNl s) := pyReadLines_subset (univNl s) x hx
    exact mem_pySplitChar '\n' (univNl s) x hxs hcx

theorem patchLines_no_cr (fc : Option PyStr) :
    ∀ l ∈ patchLines fc, '\r' ∉ l := by
  intro l hl hc
  cases fc with
  | none => simp [patchLines] at hl
  | some s =>
    unfold patchLines at hl
    obtain ⟨x, hx, rfl⟩ := List.mem_map.mp hl
    have hcx : '\r' ∈ x := mem_pyStrip '\r' x hc
    have hxs : x ∈ splitNl (univNl s) := pyReadLines_subset (univNl s) x hx
    exact univNl_no_cr s
      (mem_of_mem_pySplitChar '\n' (univNl s) x hxs '\r' hcx)

theorem patchLines_written (R : List PyStr) (last : PyStr)
    (hlast : R.getLast? = some last) (hne : last ≠ [])
    (hnl : ∀ l ∈ R, '\n' ∉ l) (hcr : ∀ l ∈ R, '\r' ∉ l)
    (hstrip : ∀ l ∈ R, pyStrip l = l) :
    patchLines (some (joinNl R)) = R := by
  show List.map pyStrip (pyReadLines (univNl (joinNl R))) = R
  rw [univNl_eq_self (joinNl R) (joinNl_no_cr R hcr)]
  rw [pyReadLines_joinNl R last hlast hne hnl]
  rw [List.map_congr_left hstrip]
  exact List.map_id R

/-- patch_file when the marker occurs among the stripped lines: the
replace-block branch. -/
theorem patchFile_eq_found (fc : Option PyStr) (x : PyStr) (n : Nat)
    (content : PyStr) (idx : Nat)
    (h : listIndex? x (patchLines fc) = some idx) :
    patchFile fc x n content =
      joinNl ((patchLines fc).take idx ++ splitNl content ++
        (patchLines fc).drop (idx + n)) := by
  show (match listIndex? x (patchLines fc) with
    | some idx =>
      joinNl ((patchLines fc).take idx ++ splitNl content ++
        (patchLines fc).drop (idx + n))
    | none => joinNl (patchLines fc ++ [[]] ++ splitNl content)) =
    joinNl ((patchLines fc).take idx ++ splitNl content ++
      (patchLines fc).drop (idx + n))
  rw [h]

/-- patch_file when the marker is absent: the append branch. -/
theorem patchFile_eq_append (fc : Option PyStr) (x : PyStr) (n : Nat)
    (content : PyStr)
    (h : listIndex? x (patchLines fc) = none) :
    patchFile fc x n content =
      joinNl (patchLines fc ++ [[]] ++ splitNl content) := by
  show (match listIndex? x (patchLines fc) with
    | some idx =>
      joinNl ((patchLines fc).take idx ++ splitNl content ++
        (patchLines fc).drop (idx + n))
    | none => joinNl (patchLines fc ++ [[]] ++ splitNl content)) =
    joinNl (patchLines fc ++ [[]] ++ splitNl content)
  rw [h]

/-- Re-applying patch_file when the marker was found the first time
reproduces the same file contents, for a well-formed block. -/
theorem patchAgainFound (fc : Option PyStr) (searchline : PyStr)
    (numlines : Nat) (content : PyStr) (idx : Nat)
    (hidx : listIndex? searchline (patchLines fc) = some idx)
    (hhead : (splitNl content).head? = some searchline)
    (hn : numlines = (splitNl content).length)
    (hstripC : ∀ l ∈ splitNl content, pyStrip l = l)
    (hcrC : '\r' ∉ content)
    (hlastC : (splitNl content).getLast? ≠ some [])
    (hlastL : (patchLines fc).getLast? ≠ some []) :
    patchFile (some (patchFile fc searchline numlines content))
      searchline numlines content =
      patchFile fc searchline numlines content := by
  obtain ⟨hnotin, hlen⟩ := listIndex?_take searchline (patchLines fc) idx hidx
  set L := patchLines fc with hLdef
  set C := splitNl content with hCdef
  obtain ⟨C2, hC2⟩ : ∃ C2, C = searchline :: C2 := by
    cases hCe : C with
    | nil =>
      rw [hCe] at hhead
      exact Option.noConfusion hhead
    | cons c0 C2 =>
      rw [hCe] at hhead
      have hc0 : c0 = searchline := by
        injection hhead
      exact ⟨C2, by rw [hc0]⟩
  have hCne : C ≠ [] := by
    rw [hC2]
    simp
  have hnlC : ∀ l ∈ C, '\n' ∉ l :=
    fun l hl => mem_pySplitChar '\n' content l hl
  have hcrCl : ∀ l ∈ C, '\r' ∉ l := fun l hl hc =>
    hcrC (mem_of_mem_pySplitChar '\n' content l hl '\r' hc)
  obtain ⟨lc, hlc, hlcne⟩ :
      ∃ lc, C.getLast? = some lc ∧ lc ≠ [] := by
    have hgl := List.getLast?_eq_getLast_of_ne_nil hCne
    refine ⟨C.getLast hCne, hgl, ?_⟩
    intro he
    rw [he] at hgl
    exact hlastC hgl
  have htakelen : (L.take idx).length = idx := by
    rw [List.length_take]
    exact Nat.min_eq_left hlen
  have h1 : patchFile fc searchline numlines content =
      joinNl (L.take idx ++ C ++ L.drop (idx + numlines)) :=
    patchFile_eq_found fc searchline numlines content idx hidx
  set D := L.drop (idx + numlines) with hDdef
  set R1 := L.take idx ++ C ++ D with hR1def
  have hmemR1 : ∀ l ∈ R1, l ∈ L ∨ l ∈ C := by
    intro l hl
    rw [hR1def] at hl
    rcases List.mem_append.mp hl with hl2 | hl2
    · rcases List.mem_append.mp hl2 with hl3 | hl3
      · exact Or.inl (List.take_subset idx L hl3)
      · exact Or.inr hl3
    · rw [hDdef] at hl2
      exact Or.inl (List.drop_subset (idx + numlines) L hl2)
  have hstripR1 : ∀ l ∈ R1, pyStrip l = l := by
    intro l hl
    rcases hmemR1 l hl with h | h
    · exact patchLines_strip fc l h
    · exact hstripC l h
  have hnlR1 : ∀ l ∈ R1, '\n' ∉ l := by
    intro l hl
    rcases hmemR1 l hl with h | h
    · exact patchLines_no_nl fc l h
    · exact hnlC l h
  have hcrR1 : ∀ l ∈ R1, '\r' ∉ l := by
    intro l hl
    rcases hmemR1 l hl with h | h
    · exact patchLines_no_cr fc l h
    · exact hcrCl l h
  obtain ⟨rl, hrl, hrlne⟩ :
      ∃ rl, R1.getLast? = some rl ∧ rl ≠ [] := by
    cases hD : D with
    | nil =>
      refine ⟨lc, ?_, hlcne⟩
      rw [hR1def, hD, List.append_nil,
        List.getLast?_append_of_ne_nil (L.take idx) hCne]
      exact hlc
    | cons d ds =>
      have hDne : D ≠ [] := by
        rw [hD]
        simp
      have hgl : L.getLast? = D.getLast? := by
        conv_lhs => rw [← List.take_append_drop (idx + numlines) L]
        rw [← hDdef]
        exact List.getLast?_append_of_ne_nil _ hDne
      have hDl := List.getLast?_eq_getLast_of_ne_nil hDne
      refine ⟨D.getLast hDne, ?_, ?_⟩
      · rw [hR1def, List.getLast?_append_of_ne_nil _ hDne]
        exact hDl
      · intro he
        apply hlastL
        show L.getLast? = some []
        rw [hgl, hDl, he]
  have pl : patchLines (some (joinNl R1)) = R1 :=
    patchLines_written R1 rl hrl hrlne hnlR1 hcrR1 hstripR1
  have hassoc : R1 = L.take idx ++ (searchline :: (C2 ++ D)) := by
    rw [hR1def, hC2, List.append_assoc, List.cons_append]
  have hidx2 : listIndex? searchline R1 = some idx := by
    rw [hassoc,
      listIndex?_append_cons searchline (L.take idx) (C2 ++ D) hnotin,
      htakelen]
  have h2 : patchFile (some (joinNl R1)) searchline numlines content =
      joinNl (R1.take idx ++ C ++ R1.drop (idx + numlines)) := by
    have h3 := patchFile_eq_found (some (joinNl R1)) searchline numlines
      content idx (by rw [pl]; exact hidx2)
    rw [pl] at h3
    exact h3
  have htake2 : R1.take idx = L.take idx := by
    rw [hR1def, List.append_assoc]
    exact List.take_left' htakelen
  have hdrop2 : R1.drop (idx + numlines) = D := by
    rw [hR1def, List.append_assoc, ← List.drop_drop,
      List.drop_left' htakelen]
    exact List.drop_left' (by rw [hn])
  rw [h1, h2, htake2, hdrop2, ← hR1def]

/-- Re-applying patch_file when the first application appended the block
reproduces the same file contents, for a well-formed block. -/
theorem patchAgainAppend (fc : Option PyStr) (searchline : PyStr)
    (numlines : Nat) (content : PyStr)
    (hidx : listIndex? searchline (patchLines fc) = none)
    (hhead : (splitNl content).head? = some searchline)
    (hn : numlines = (splitNl content).length)
    (hstripC : ∀ l ∈ splitNl content, pyStrip l = l)
    (hcrC : '\r' ∉ content)
    (hlastC : (splitNl content).getLast? ≠ some [])
    (hmne : searchline ≠ []) :
    patchFile (some (patchFile fc searchline numlines content))
      searchline numlines content =
      patchFile fc searchline numlines content := by
  set L := patchLines fc with hLdef
  set C := splitNl content with hCdef
  obtain ⟨C2, hC2⟩ : ∃ C2, C = searchline :: C2 := by
    cases hCe : C with
    | nil =>
      rw [hCe] at hhead
      exact Option.noConfusion hhead
    | cons c0 C2 =>
      rw [hCe] at hhead
      have hc0 : c0 = searchline := by
        injection hhead
      exact ⟨C2, by rw [hc0]⟩
  have hCne : C ≠ [] := by
    rw [hC2]
    simp
  have hnlC : ∀ l ∈ C, '\n' ∉ l :=
    fun l hl => mem_pySplitChar '\n' content l hl
  have hcrCl : ∀ l ∈ C, '\r' ∉ l := fun l hl hc =>
    hcrC (mem_of_mem_pySplitChar '\n' content l hl '\r' hc)
  obtain ⟨lc, hlc, hlcne⟩ :
      ∃ lc, C.getLast? = some lc ∧ lc ≠ [] := by
    have hgl := List.getLast?_eq_getLast_of_ne_nil hCne
    refine ⟨C.getLast hCne, hgl, ?_⟩
    intro he
    rw [he] at hgl
    exact hlastC hgl
  have hnm : searchline ∉ L := listIndex?_not_mem searchline L hidx
  have h1 : patchFile fc searchline numlines content =
      joinNl (L ++ [[]] ++ C) :=
    patchFile_eq_append fc searchline numlines content hidx
  set R1 := L ++ [[]] ++ C with hR1def
  have hmemR1 : ∀ l ∈ R1, l ∈ L ∨ l = [] ∨ l ∈ C := by
    intro l hl
    rw [hR1def] at hl
    rcases List.mem_append.mp hl with hl2 | hl2
    · rcases List.mem_append.mp hl2 with hl3 | hl3
      · exact Or.inl hl3
      · exact Or.inr (Or.inl (by simpa using hl3))
    · exact Or.inr (Or.inr hl2)
  have hstripR1 : ∀ l ∈ R1, pyStrip l = l := by
    intro l hl
    rcases hmemR1 l hl with h | h | h
    · exact patchLines_strip fc l h
    · rw [h]
      rfl
    · exact hstripC l h
  have hnlR1 : ∀ l ∈ R1, '\n' ∉ l := by
    intro l hl
    rcases hmemR1 l hl with h | h | h
    · exact patchLines_no_nl fc l h
    · rw [h]
      simp
    · exact hnlC l h
  have hcrR1 : ∀ l ∈ R1, '\r' ∉ l := by
    intro l hl
    rcases hmemR1 l hl with h | h | h
    · exact patchLines_no_cr fc l h
    · rw [h]
      simp
    · exact hcrCl l h
  have hrl : R1.getLast? = some lc := by
    rw [hR1def, List.getLast?_append_of_ne_nil (L ++ [[]]) hCne]
    exact hlc
  have pl : patchLines (some (joinNl R1)) = R1 :=
    patchLines_written R1 lc hrl hlcne hnlR1 hcrR1 hstripR1
  have hpref : (L ++ [[]]).length = L.length + 1 := by
    simp
  have hnm2 : searchline ∉ L ++ [[]] := by
    intro hmem
    rcases List.mem_append.mp hmem with h | h
    · exact hnm h
    · exact hmne (by simpa using h)
  have hassoc : R1 = (L ++ [[]]) ++ (searchline :: C2) := by
    rw [hR1def, hC2]
  have hidx2 : listIndex? searchline R1 = some (L.length + 1) := by
    rw [hassoc,
      listIndex?_append_cons searchline (L ++ [[]]) C2 hnm2, hpref]
  have h2 : patchFile (some (joinNl R1)) searchline numlines content =
      joinNl (R1.take (L.length + 1) ++ C ++
        R1.drop (L.length + 1 + numlines)) := by
    have h3 := patchFile_eq_found (some (joinNl R1)) searchline numlines
      content (L.length + 1) (by rw [pl]; exact hidx2)
    rw [pl] at h3
    exact h3
  have htake2 : R1.take (L.length + 1) = L ++ [[]] := by
    rw [hR1def]
    exact List.take_left' hpref
  have hdrop2 : R1.drop (L.length + 1 + numlines) = [] := by
    rw [hR1def, ← List.drop_drop, List.drop_left' hpref, hn]
    exact List.drop_length C
  rw [h1, h2, htake2, hdrop2, List.append_nil, ← hR1def]


/-- The stripped line list is the raw line list mapped through
str.strip(). -/
theorem patchLines_eq_origLines (fc : Option PyStr) :
    patchLines fc = (origLines fc).map pyStrip := by
  cases fc <;> rfl

/-- C7 counterexample: with a block that does not contain the marker
line, patch_file appends the block again on the second call, so two
calls with identical arguments do not leave the file byte-identical to
its state after the first call.  Here an absent file patched twice with
marker MARK and block hello ends as two copies of the block. -/
theorem fsl_C7_idempotence_counterexample :
    patchFile (some (patchFile none ("MARK".data) 1 ("hello".data)))
        ("MARK".data) 1 ("hello".data) ≠
      patchFile none ("MARK".data) 1 ("hello".data) := by
  decide

/-- C7 as amended: patch_file is idempotent with respect to file
contents provided the block is well-formed for re-application: its
first line is the (non-empty) marker line, the declared line count is
the block's line count, each block line and the block's last line
survive stripping (no edge whitespace, no carriage returns, non-empty
last line), and the file's stripped line list does not end with an
empty line (a trailing blank is collapsed by the write/read round
trip). -/
theorem fsl_C7_patch_idempotent (fc : Option PyStr) (searchline : PyStr)
    (numlines : Nat) (content : PyStr)
    (hhead : (splitNl content).head? = some searchline)
    (hn : numlines = (splitNl content).length)
    (hstripC : ∀ l ∈ splitNl content, pyStrip l = l)
    (hcrC : '\r' ∉ content)
    (hlastC : (splitNl content).getLast? ≠ some [])
    (hmne : searchline ≠ [])
    (hlastL : (patchLines fc).getLast? ≠ some []) :
    patchFile (some (patchFile fc searchline numlines content))
        searchline numlines content =
      patchFile fc searchline numlines content := by
  cases hidx : listIndex? searchline (patchLines fc) with
  | some idx =>
    exact patchAgainFound fc searchline numlines content idx hidx hhead hn
      hstripC hcrC hlastC hlastL
  | none =>
    exact patchAgainAppend fc searchline numlines content hidx hhead hn
      hstripC hcrC hlastC hmne

/-- Witness for C7 at a concrete file and block. -/
theorem fsl_C7_patch_idempotent_witness :
    patchFile
        (some (patchFile (some ("a\nMARK\nold\nb".data)) ("MARK".data) 2
          ("MARK\nnew".data)))
        ("MARK".data) 2 ("MARK\nnew".data) =
      patchFile (some ("a\nMARK\nold\nb".data)) ("MARK".data) 2
        ("MARK\nnew".data) :=
  fsl_C7_patch_idempotent (some ("a\nMARK\nold\nb".data)) ("MARK".data) 2
    ("MARK\nnew".data) (by decide) (by decide) (by decide) (by decide)
    (by decide) (by decide) (by decide)

/-- C8 counterexample: patch_file rewrites the file from its stripped
lines, so a non-replaced line with leading whitespace is not left
unchanged: patching a file whose first line is two-spaces-a yields a
first line a, not the claimed untouched original. -/
theorem fsl_C8_frame_counterexample :
    patchFile (some ("  a\nMARK\nb".data)) ("MARK".data) 1 ("X".data) =
      ("a\nX\nb").data ∧
    patchFile (some ("  a\nMARK\nb".data)) ("MARK".data) 1 ("X".data) ≠
      ("  a\nX\nb").data := by
  constructor
  · decide
  · decide

/-- C8 as amended: when the marker occurs among the stripped lines at
first index idx, the output is the stripped prefix before idx, then the
block, then the stripped lines from idx plus the declared count on -
every other line is preserved only up to stripping of leading and
trailing whitespace; when the marker is absent the output is the
stripped lines, one blank separator line, and the block; an absent file
is created holding the blank separator and the block (its parent
directory is created by the caller, not by patch_file). -/
theorem fsl_C8_patch_frame (fc : Option PyStr) (searchline : PyStr)
    (numlines : Nat) (content : PyStr) :
    (∀ idx, listIndex? searchline ((origLines fc).map pyStrip) = some idx →
      patchFile fc searchline numlines content =
        joinNl (((origLines fc).take idx).map pyStrip ++ splitNl content ++
          ((origLines fc).drop (idx + numlines)).map pyStrip)) ∧
    (listIndex? searchline ((origLines fc).map pyStrip) = none →
      patchFile fc searchline numlines content =
        joinNl ((origLines fc).map pyStrip ++ [[]] ++ splitNl content)) ∧
    (fc = none →
      patchFile fc searchline numlines content =
        joinNl ([[]] ++ splitNl content)) := by
  have hpl := patchLines_eq_origLines fc
  refine ⟨?_, ?_, ?_⟩
  · intro idx h
    rw [patchFile_eq_found fc searchline numlines content idx
      (by rw [hpl]; exact h), hpl, List.map_take, List.map_drop]
  · intro h
    rw [patchFile_eq_append fc searchline numlines content
      (by rw [hpl]; exact h), hpl]
  · rintro rfl
    rw [patchFile_eq_append none searchline numlines content rfl]
    rfl

/-- Witness for C8: the replace branch at a concrete file. -/
theorem fsl_C8_patch_frame_witness :
    patchFile (some ("a\nMARK\nold\nb".data)) ("MARK".data) 2
        ("NEW".data) =
      joinNl (((origLines (some ("a\nMARK\nold\nb".data))).take 1).map
          pyStrip ++ splitNl ("NEW".data) ++
        ((origLines (some ("a\nMARK\nold\nb".data))).drop 3).map pyStrip) :=
  (fsl_C8_patch_frame (some ("a\nMARK\nold\nb".data)) ("MARK".data) 2
    ("NEW".data)).1 1 (by decide)
